import Mathlib

/-!
Shallow embedding of the retrieval-and-ranking pipeline of
src/api/rag_system.py, together with theorems settling the frozen claims
about it.

Modelling conventions:
* Python strings are Lean `String`; the character-level helpers below
  (pyStrip, pyLower, pyTake, pyLen) work on `String.data` so that every
  definition evaluates by kernel reduction.
* Cryptographic digests (hashlib.md5, hashlib.sha1, uuid.uuid5) are modelled
  as injective tagged-string digests: the claims only use that these are
  deterministic, collision-free fingerprints, never their bit-level output.
* Python floats that carry scores and weights are modelled as `ℚ`.
* External collaborators (the OpenAI embedding endpoint, the Qdrant store,
  the Cohere reranker, the answer generator) are oracles passed in as
  environment records; a call that can raise is an `Except Unit` value.
* Python dicts that the source mutates are association lists with
  insertion-order semantics, matching dict iteration order.
-/

namespace RagSystem

/-- Python str.strip(): drop leading and trailing whitespace characters. -/
def pyStrip (s : String) : String :=
  ⟨((s.data.dropWhile Char.isWhitespace).reverse.dropWhile Char.isWhitespace).reverse⟩

/-- Python str.lower(), ASCII case folding. -/
def pyLower (s : String) : String := ⟨s.data.map Char.toLower⟩

/-- Python s[:n] character slicing. -/
def pyTake (s : String) (n : Nat) : String := ⟨s.data.take n⟩

/-- Python len() on a string, counted in characters. -/
def pyLen (s : String) : Nat := s.data.length

/-- hashlib.md5(...).hexdigest(), modelled as an injective digest. -/
def md5 (s : String) : String := "md5:" ++ s

/-- hashlib.sha1(...).hexdigest() (helper `sha1` of the source), modelled as
an injective digest. -/
def sha1 (s : String) : String := "sha1:" ++ s

/-- uuid.uuid5(namespace, name), modelled as an injective digest of the
namespace and the name. -/
def uuid5 (ns name : String) : String := "uuid5:" ++ ns ++ "|" ++ name

theorem md5_injective {a b : String} (h : md5 a = md5 b) : a = b := by
  have hd : ("md5:" ++ a).data = ("md5:" ++ b).data := congrArg String.data h
  rw [String.data_append, String.data_append] at hd
  exact String.ext (List.append_cancel_left hd)

/-- Lookup in an insertion-ordered association list (Python dict access). -/
def dlookup {α : Type} : List (String × α) → String → Option α
  | [], _ => none
  | (k, v) :: d, key => if k = key then some v else dlookup d key

theorem dlookup_cons {α : Type} (k : String) (v : α) (d : List (String × α))
    (key : String) :
    dlookup ((k, v) :: d) key = if k = key then some v else dlookup d key := rfl

/-! ## Structural chunker (md_to_chunks, lines 249-265)

The two langchain splitters (MarkdownHeaderTextSplitter and
RecursiveCharacterTextSplitter) are external library collaborators; the
embedding therefore takes the list `parts` of split pieces as input and
models the enumerate-filter-index loop of md_to_chunks over it. -/

/-- Metadata record attached to a chunk (the `page` field, always None in
md_to_chunks, is omitted). -/
structure ChunkMeta where
  source : String
  chunkIndex : Nat
deriving DecidableEq, Repr

/-- The loop `for i, piece in enumerate(parts)` of md_to_chunks: pieces whose
stripped length is below 50 are discarded, surviving pieces keep their
pre-filter enumeration position as chunk_index. -/
def mdToChunksAux (origin : String) : Nat → List String → List String × List ChunkMeta
  | _, [] => ([], [])
  | i, piece :: rest =>
    let r := mdToChunksAux origin (i + 1) rest
    if pyLen (pyStrip piece) < 50 then r
    else (piece :: r.1, ChunkMeta.mk origin i :: r.2)

/-- md_to_chunks restricted to its out/meta accumulation (the splitters are
applied upstream and feed `parts`). -/
def mdToChunks (parts : List String) (origin : String) : List String × List ChunkMeta :=
  mdToChunksAux origin 0 parts

theorem mdToChunksAux_fst (origin : String) (parts : List String) (n : Nat) :
    (mdToChunksAux origin n parts).1 =
      ((List.enumFrom n parts).filter fun p => !(pyLen (pyStrip p.2) < 50 : Bool)).map Prod.snd := by
  induction parts generalizing n with
  | nil => simp [mdToChunksAux]
  | cons piece rest ih =>
    rw [mdToChunksAux, List.enumFrom_cons]
    by_cases h : pyLen (pyStrip piece) < 50 <;>
      simp [h, ih (n + 1)]

theorem mdToChunksAux_snd (origin : String) (parts : List String) (n : Nat) :
    (mdToChunksAux origin n parts).2 =
      ((List.enumFrom n parts).filter fun p => !(pyLen (pyStrip p.2) < 50 : Bool)).map
        (fun p => ChunkMeta.mk origin p.1) := by
  induction parts generalizing n with
  | nil => simp [mdToChunksAux]
  | cons piece rest ih =>
    rw [mdToChunksAux, List.enumFrom_cons]
    by_cases h : pyLen (pyStrip piece) < 50 <;>
      simp [h, ih (n + 1)]

theorem mdToChunksAux_index_lb (origin : String) (parts : List String) (n : Nat) :
    ∀ m ∈ (mdToChunksAux origin n parts).2, n ≤ m.chunkIndex := by
  induction parts generalizing n with
  | nil => simp [mdToChunksAux]
  | cons piece rest ih =>
    intro m hm
    rw [mdToChunksAux] at hm
    by_cases h : pyLen (pyStrip piece) < 50
    · simp only [h, if_true] at hm
      exact Nat.le_of_succ_le (ih (n + 1) m hm)
    · simp only [h, if_false] at hm
      rcases List.mem_cons.mp hm with h1 | h1
      · subst h1; exact Nat.le_refl n
      · exact Nat.le_of_succ_le (ih (n + 1) m h1)

theorem mdToChunksAux_sorted (origin : String) (parts : List String) (n : Nat) :
    List.Pairwise (· < ·) ((mdToChunksAux origin n parts).2.map ChunkMeta.chunkIndex) := by
  induction parts generalizing n with
  | nil => simp [mdToChunksAux]
  | cons piece rest ih =>
    rw [mdToChunksAux]
    by_cases h : pyLen (pyStrip piece) < 50
    · simpa [h] using ih (n + 1)
    · simp only [h, if_false, List.map_cons, List.pairwise_cons]
      refine ⟨?_, ih (n + 1)⟩
      intro b hb
      rcases List.mem_map.mp hb with ⟨m, hm, hbm⟩
      have := mdToChunksAux_index_lb origin rest (n + 1) m hm
      omega

/-- C10: in every chunking call the chunk_index values of the surviving
chunks are strictly increasing, and each index is the position of the chunk
in the pre-filter list of split pieces (so pieces dropped for being shorter
than 50 characters after stripping leave gaps, and the sequence need not
start at 0 nor be contiguous); the surviving texts are exactly the
long-enough pieces in order, and every chunk carries the origin as source. -/
theorem chunk_index_prefilter_characterization (parts : List String) (origin : String) :
    List.Pairwise (· < ·) ((mdToChunks parts origin).2.map ChunkMeta.chunkIndex) ∧
    (mdToChunks parts origin).2.map ChunkMeta.chunkIndex =
      ((parts.enum.filter fun p => !(pyLen (pyStrip p.2) < 50 : Bool)).map Prod.fst) ∧
    (mdToChunks parts origin).1 =
      ((parts.enum.filter fun p => !(pyLen (pyStrip p.2) < 50 : Bool)).map Prod.snd) ∧
    ∀ m ∈ (mdToChunks parts origin).2, m.source = origin := by
  refine ⟨mdToChunksAux_sorted origin parts 0, ?_, ?_, ?_⟩
  · rw [mdToChunks, mdToChunksAux_snd, List.enum]
    simp [List.map_map, Function.comp]
  · rw [mdToChunks, mdToChunksAux_fst, List.enum]
  · intro m hm
    rw [mdToChunks, mdToChunksAux_snd] at hm
    rcases List.mem_map.mp hm with ⟨p, _, hpm⟩
    rw [← hpm]

/-- C10 witness: a first piece below the length floor is dropped and the
surviving second piece keeps pre-filter index 1, carrying the origin. -/
theorem chunk_index_prefilter_characterization_witness :
    (ChunkMeta.mk "https://doc.example" 1).source = "https://doc.example" :=
  (chunk_index_prefilter_characterization
      ["tiny", "This surviving piece is long enough to pass the fifty character filter."]
      "https://doc.example").2.2.2
    (ChunkMeta.mk "https://doc.example" 1) (by decide)

/-! ## Chunk identifiers (upsert_chunks_to_qdrant, lines 507-559)

The id assignment of the upsert loop: `doc_id = sha1(meta["source"])`,
`raw = f"{doc_id}|{global_idx_counter}"`, `pid = uuid5(NAMESPACE_URL, raw)`.
The loop slices the chunk list into batches of 25, but global_idx_counter
runs across batch boundaries, so the (text, meta, global index) triples are
those of a single enumeration of the whole list; the embedding enumerates
directly. -/

def NAMESPACE_URL : String := "6ba7b811-9dad-11d1-80b4-00c04fd430c8"

/-- The chunk-id sequence produced by upsert_chunks_to_qdrant, with `n` the
running global_idx_counter. -/
def upsertIdsAux : Nat → List (String × ChunkMeta) → List String
  | _, [] => []
  | n, (_, meta) :: rest =>
    uuid5 NAMESPACE_URL (sha1 meta.source ++ "|" ++ toString n) :: upsertIdsAux (n + 1) rest

/-- Chunk ids for one upsert call over (text, meta) pairs in request order. -/
def upsertChunkIds (chunksMetas : List (String × ChunkMeta)) : List String :=
  upsertIdsAux 0 chunksMetas

/-- C2 counterexample: the identifier of the first (and only) chunk of
document B differs between a request that ingests document A before B and a
request that ingests B alone, although the pair (document identifier,
ordinal position within B) is identical in both requests. -/
theorem chunk_id_depends_on_other_documents :
    (upsertChunkIds
      [("first chunk of document A", ChunkMeta.mk "https://a.example/doc" 0),
       ("first chunk of document B", ChunkMeta.mk "https://b.example/doc" 0)])[1]? ≠
    (upsertChunkIds
      [("first chunk of document B", ChunkMeta.mk "https://b.example/doc" 0)])[0]? := by
  decide

theorem upsertIdsAux_eq (n : Nat) (cm : List (String × ChunkMeta)) :
    upsertIdsAux n cm =
      (List.enumFrom n cm).map
        (fun p => uuid5 NAMESPACE_URL (sha1 p.2.2.source ++ "|" ++ toString p.1)) := by
  induction cm generalizing n with
  | nil => simp [upsertIdsAux]
  | cons head rest ih =>
    rw [upsertIdsAux, List.enumFrom_cons, List.map_cons, ih (n + 1)]

/-- C2 amended: every chunk identifier is uuid5(NAMESPACE_URL,
sha1(source) ++ "|" ++ n) where n is the global position of the chunk in the
concatenated chunk list of the whole request (a counter running across all
documents), not the ordinal position within its own document. The derivation
is deterministic, so re-ingesting the identical full request reproduces
identical identifiers, but the identifier of a chunk depends on how many
chunks of other documents precede it in the same request. -/
theorem chunk_id_global_counter_characterization (cm : List (String × ChunkMeta)) :
    upsertChunkIds cm =
      cm.enum.map (fun p => uuid5 NAMESPACE_URL (sha1 p.2.2.source ++ "|" ++ toString p.1)) := by
  rw [upsertChunkIds, upsertIdsAux_eq, List.enum]

/-! ## Python dict helpers for score maps -/

/-- Python dict assignment d[k] = v on an insertion-ordered association list
with unique keys: update in place, or append for a new key. -/
def dictSet : List (String × ℚ) → String → ℚ → List (String × ℚ)
  | [], k, v => [(k, v)]
  | (k1, v1) :: d, k, v => if k1 = k then (k, v) :: d else (k1, v1) :: dictSet d k v

/-- The source pattern `if k in d: d[k] += v else: d[k] = v`. -/
def dictAdd : List (String × ℚ) → String → ℚ → List (String × ℚ)
  | [], k, v => [(k, v)]
  | (k1, v1) :: d, k, v => if k1 = k then (k1, v1 + v) :: d else (k1, v1) :: dictAdd d k v

theorem dlookup_dictSet_self (d : List (String × ℚ)) (k : String) (v : ℚ) :
    dlookup (dictSet d k v) k = some v := by
  induction d with
  | nil => simp [dictSet, dlookup]
  | cons p d ih =>
    by_cases h : p.1 = k <;> simp [dictSet, dlookup, h, ih]

theorem dlookup_dictSet_ne (d : List (String × ℚ)) (k key : String) (v : ℚ)
    (h : k ≠ key) : dlookup (dictSet d k v) key = dlookup d key := by
  induction d with
  | nil => simp [dictSet, dlookup, h]
  | cons p d ih =>
    by_cases h1 : p.1 = k
    · simp [dictSet, dlookup, h1, h]
    · simp [dictSet, dlookup, h1, ih]

theorem dlookup_dictAdd_self (d : List (String × ℚ)) (k : String) (v : ℚ) :
    dlookup (dictAdd d k v) k = some ((dlookup d k).getD 0 + v) := by
  induction d with
  | nil => simp [dictAdd, dlookup]
  | cons p d ih =>
    by_cases h : p.1 = k <;> simp [dictAdd, dlookup, h, ih]

theorem dlookup_dictAdd_ne (d : List (String × ℚ)) (k key : String) (v : ℚ)
    (h : k ≠ key) : dlookup (dictAdd d k v) key = dlookup d key := by
  induction d with
  | nil => simp [dictAdd, dlookup, h]
  | cons p d ih =>
    by_cases h1 : p.1 = k
    · subst h1
      simp [dictAdd, dlookup, h]
    · simp [dictAdd, dlookup, h1, ih]

theorem length_dictSet_le (d : List (String × ℚ)) (k : String) (v : ℚ) :
    (dictSet d k v).length ≤ d.length + 1 := by
  induction d with
  | nil => simp [dictSet]
  | cons p d ih =>
    by_cases h : p.1 = k <;> simp [dictSet, h] <;> omega

theorem length_dictAdd_le (d : List (String × ℚ)) (k : String) (v : ℚ) :
    (dictAdd d k v).length ≤ d.length + 1 := by
  induction d with
  | nil => simp [dictAdd]
  | cons p d ih =>
    by_cases h : p.1 = k <;> simp [dictAdd, h] <;> omega

/-- Stable descending sort by score: insertion of one element keeping it
after strictly higher scores and before lower-or-equal later ones, matching
Python list.sort(key=score, reverse=True). -/
def insertDesc (x : String × ℚ) : List (String × ℚ) → List (String × ℚ)
  | [] => [x]
  | y :: l => if x.2 < y.2 then y :: insertDesc x l else x :: y :: l

def sortByScoreDesc (l : List (String × ℚ)) : List (String × ℚ) := l.foldr insertDesc []

theorem length_insertDesc (x : String × ℚ) (l : List (String × ℚ)) :
    (insertDesc x l).length = l.length + 1 := by
  induction l with
  | nil => rfl
  | cons y l ih =>
    by_cases h : x.2 < y.2 <;> simp [insertDesc, h, ih]

theorem length_sortByScoreDesc (l : List (String × ℚ)) :
    (sortByScoreDesc l).length = l.length := by
  induction l with
  | nil => rfl
  | cons y l ih =>
    simp [sortByScoreDesc, List.foldr] at ih ⊢
    rw [length_insertDesc, ih]

/-! ## Hybrid Fusion Engine: Reciprocal Rank Fusion
(HybridSearcher.hybrid_search, lines 434-470)

The fusion stage of hybrid_search over the two ranked id lists: the vector
result list and the BM25 result list. The metadata payloads and the
vector_score/bm25_score annotations carried alongside each entry in the
source never influence the fused score or the output order and are omitted
from the fused map. -/

/-- RRF contribution 1 / (k + rank + 1) with k = 60 and rank 0-based. -/
def rrfContrib (rank : Nat) : ℚ := 1 / (60 + (rank : ℚ) + 1)

/-- First RRF loop: assign each vector-result id its reciprocal-rank score
(a plain dict assignment). -/
def rrfVecLoop : List String → Nat → List (String × ℚ) → List (String × ℚ)
  | [], _, d => d
  | id1 :: rest, rank, d => rrfVecLoop rest (rank + 1) (dictSet d id1 (rrfContrib rank))

/-- Second RRF loop: add each BM25-result contribution, summing with the
vector contribution when the id is already present. -/
def rrfLexLoop : List String → Nat → List (String × ℚ) → List (String × ℚ)
  | [], _, d => d
  | id1 :: rest, rank, d => rrfLexLoop rest (rank + 1) (dictAdd d id1 (rrfContrib rank))

/-- The rrf_scores map of hybrid_search, keyed by candidate id. -/
def rrfScores (vec lex : List String) : List (String × ℚ) :=
  rrfLexLoop lex 0 (rrfVecLoop vec 0 [])

/-- Fused output of hybrid_search: sorted descending by fused score and
truncated to `limit`. -/
def rrfFuse (vec lex : List String) (limit : Nat) : List (String × ℚ) :=
  (sortByScoreDesc (rrfScores vec lex)).take limit

theorem rrfVecLoop_not_mem (l : List String) (n : Nat) (d : List (String × ℚ))
    (key : String) (h : key ∉ l) :
    dlookup (rrfVecLoop l n d) key = dlookup d key := by
  induction l generalizing n d with
  | nil => rfl
  | cons a rest ih =>
    have ha : a ≠ key := fun e => h (e ▸ List.mem_cons_self a rest)
    rw [rrfVecLoop, ih (n + 1) _ fun hm => h (List.mem_cons_of_mem a hm),
      dlookup_dictSet_ne _ _ _ _ ha]

theorem rrfLexLoop_not_mem (l : List String) (n : Nat) (d : List (String × ℚ))
    (key : String) (h : key ∉ l) :
    dlookup (rrfLexLoop l n d) key = dlookup d key := by
  induction l generalizing n d with
  | nil => rfl
  | cons a rest ih =>
    have ha : a ≠ key := fun e => h (e ▸ List.mem_cons_self a rest)
    rw [rrfLexLoop, ih (n + 1) _ fun hm => h (List.mem_cons_of_mem a hm),
      dlookup_dictAdd_ne _ _ _ _ ha]

theorem rrfVecLoop_mem (l : List String) (hn : l.Nodup) (r : Nat) (key : String)
    (hg : l[r]? = some key) (n : Nat) (d : List (String × ℚ)) :
    dlookup (rrfVecLoop l n d) key = some (rrfContrib (n + r)) := by
  induction l generalizing n d r with
  | nil => simp at hg
  | cons a rest ih =>
    rcases List.nodup_cons.mp hn with ⟨hna, hnr⟩
    match r with
    | 0 =>
      have : a = key := by simpa using hg
      subst this
      rw [rrfVecLoop, rrfVecLoop_not_mem rest (n + 1) _ _ hna,
        dlookup_dictSet_self, Nat.add_zero]
    | r + 1 =>
      have hg1 : rest[r]? = some key := by simpa using hg
      rw [rrfVecLoop, ih hnr r hg1 (n + 1)]
      have : n + 1 + r = n + (r + 1) := by omega
      rw [this]

theorem rrfLexLoop_mem (l : List String) (hn : l.Nodup) (r : Nat) (key : String)
    (hg : l[r]? = some key) (n : Nat) (d : List (String × ℚ)) :
    dlookup (rrfLexLoop l n d) key = some ((dlookup d key).getD 0 + rrfContrib (n + r)) := by
  induction l generalizing n d r with
  | nil => simp at hg
  | cons a rest ih =>
    rcases List.nodup_cons.mp hn with ⟨hna, hnr⟩
    match r with
    | 0 =>
      have : a = key := by simpa using hg
      subst this
      rw [rrfLexLoop, rrfLexLoop_not_mem rest (n + 1) _ _ hna,
        dlookup_dictAdd_self]
      simp
    | r + 1 =>
      have hg1 : rest[r]? = some key := by simpa using hg
      rw [rrfLexLoop, ih hnr r hg1 (n + 1)]
      have ha : a ≠ key := by
        intro e
        subst e
        exact hna (List.getElem?_mem hg1)
      rw [dlookup_dictAdd_ne _ _ _ _ ha]
      have : n + 1 + r = n + (r + 1) := by omega
      rw [this]

theorem length_rrfVecLoop_le (l : List String) (n : Nat) (d : List (String × ℚ)) :
    (rrfVecLoop l n d).length ≤ d.length + l.length := by
  induction l generalizing n d with
  | nil => simp [rrfVecLoop]
  | cons a rest ih =>
    rw [rrfVecLoop]
    calc (rrfVecLoop rest (n + 1) (dictSet d a (rrfContrib n))).length
        ≤ (dictSet d a (rrfContrib n)).length + rest.length := ih (n + 1) _
      _ ≤ d.length + 1 + rest.length := by
          have := length_dictSet_le d a (rrfContrib n)
          omega
      _ = d.length + (a :: rest).length := by simp; omega

theorem length_rrfLexLoop_le (l : List String) (n : Nat) (d : List (String × ℚ)) :
    (rrfLexLoop l n d).length ≤ d.length + l.length := by
  induction l generalizing n d with
  | nil => simp [rrfLexLoop]
  | cons a rest ih =>
    rw [rrfLexLoop]
    calc (rrfLexLoop rest (n + 1) (dictAdd d a (rrfContrib n))).length
        ≤ (dictAdd d a (rrfContrib n)).length + rest.length := ih (n + 1) _
      _ ≤ d.length + 1 + rest.length := by
          have := length_dictAdd_le d a (rrfContrib n)
          omega
      _ = d.length + (a :: rest).length := by simp; omega

theorem rrfContrib_lt_best (r : Nat) : rrfContrib r < 2 / (60 + 1) := by
  rw [rrfContrib]
  have h1 : (0:ℚ) < 60 + (r : ℚ) + 1 := by positivity
  have h2 : (60 : ℚ) + 1 ≤ 60 + (r : ℚ) + 1 := by
    have : (0:ℚ) ≤ (r : ℚ) := Nat.cast_nonneg r
    linarith
  have h3 : 1 / (60 + (r : ℚ) + 1) ≤ 1 / (60 + 1) :=
    one_div_le_one_div_of_le (by norm_num) h2
  calc 1 / (60 + (r : ℚ) + 1) ≤ 1 / (60 + 1) := h3
    _ < 2 / (60 + 1) := by norm_num

/-- C3: in the RRF fusion with k = 60, a candidate in exactly one ranked
list has fused score 1/(k+rank+1) for its 0-based rank in that list; a
candidate in both lists sums its two contributions; a candidate ranked
first in both lists has fused score 2/(k+1), strictly greater than the
fused score of any candidate appearing in only one list; and the fused
output has length at most n+m for input lists of lengths n and m. -/
theorem rrf_fusion_properties (vec lex : List String) (hv : vec.Nodup) (hl : lex.Nodup) :
    (∀ id1 r, vec[r]? = some id1 → id1 ∉ lex →
        dlookup (rrfScores vec lex) id1 = some (rrfContrib r)) ∧
    (∀ id1 r, lex[r]? = some id1 → id1 ∉ vec →
        dlookup (rrfScores vec lex) id1 = some (rrfContrib r)) ∧
    (∀ id1 r1 r2, vec[r1]? = some id1 → lex[r2]? = some id1 →
        dlookup (rrfScores vec lex) id1 = some (rrfContrib r1 + rrfContrib r2)) ∧
    (∀ id1, vec[0]? = some id1 → lex[0]? = some id1 →
        dlookup (rrfScores vec lex) id1 = some (2 / (60 + 1)) ∧
        ∀ (id2 : String) (r : Nat),
          ((vec[r]? = some id2 ∧ id2 ∉ lex) ∨ (lex[r]? = some id2 ∧ id2 ∉ vec)) →
          ∃ s, dlookup (rrfScores vec lex) id2 = some s ∧ s < 2 / (60 + 1)) ∧
    (∀ limit, (rrfFuse vec lex limit).length ≤ vec.length + lex.length) := by
  have honly_vec : ∀ id1 r, vec[r]? = some id1 → id1 ∉ lex →
      dlookup (rrfScores vec lex) id1 = some (rrfContrib r) := by
    intro id1 r hg hnl
    rw [rrfScores, rrfLexLoop_not_mem _ _ _ _ hnl, rrfVecLoop_mem vec hv r id1 hg 0]
    rw [Nat.zero_add]
  have honly_lex : ∀ id1 r, lex[r]? = some id1 → id1 ∉ vec →
      dlookup (rrfScores vec lex) id1 = some (rrfContrib r) := by
    intro id1 r hg hnv
    rw [rrfScores, rrfLexLoop_mem lex hl r id1 hg 0, rrfVecLoop_not_mem _ _ _ _ hnv]
    simp [dlookup]
  have hboth : ∀ id1 r1 r2, vec[r1]? = some id1 → lex[r2]? = some id1 →
      dlookup (rrfScores vec lex) id1 = some (rrfContrib r1 + rrfContrib r2) := by
    intro id1 r1 r2 hg1 hg2
    rw [rrfScores, rrfLexLoop_mem lex hl r2 id1 hg2 0,
      rrfVecLoop_mem vec hv r1 id1 hg1 0]
    simp [Nat.zero_add]
  refine ⟨honly_vec, honly_lex, hboth, ?_, ?_⟩
  · intro id1 hg1 hg2
    have hsum := hboth id1 0 0 hg1 hg2
    have hval : rrfContrib 0 + rrfContrib 0 = 2 / (60 + 1) := by
      rw [rrfContrib]
      push_cast
      norm_num
    refine ⟨by rw [hsum, hval], ?_⟩
    intro id2 r hcase
    rcases hcase with ⟨hg, hnl⟩ | ⟨hg, hnv⟩
    · exact ⟨rrfContrib r, honly_vec id2 r hg hnl, rrfContrib_lt_best r⟩
    · exact ⟨rrfContrib r, honly_lex id2 r hg hnv, rrfContrib_lt_best r⟩
  · intro limit
    calc (rrfFuse vec lex limit).length
        ≤ (sortByScoreDesc (rrfScores vec lex)).length := by
          rw [rrfFuse, List.length_take]
          exact inf_le_right
      _ = (rrfScores vec lex).length := length_sortByScoreDesc _
      _ ≤ vec.length + lex.length := by
          have h1 := length_rrfLexLoop_le lex 0 (rrfVecLoop vec 0 [])
          have h2 := length_rrfVecLoop_le vec 0 []
          rw [rrfScores]
          simp at h2
          omega

/-- C3 witness: instantiating the fusion theorem on two small concrete
ranked lists. -/
theorem rrf_fusion_properties_witness :
    dlookup (rrfScores ["a", "b"] ["b", "c"]) "a" = some (rrfContrib 0) :=
  (rrf_fusion_properties ["a", "b"] ["b", "c"] (by decide) (by decide)).1 "a" 0 rfl
    (by decide)

/-! ## Multi-query vector search (qdrant_search_multi, lines 562-612) -/

/-- Default SCORE_THRESHOLD = 0.12. -/
def SCORE_THRESHOLD : ℚ := 12 / 100

/-- External vector store oracle: query text, doc-id filter and score
threshold yield a ranked hit list of (id, score) pairs, or a raised error.
The embedding of the query text (which the source computes first and only
feeds to the store) is folded into the oracle. -/
structure SearchEnv where
  search : String → List String → ℚ → Except Unit (List (String × ℚ))

/-- One variant of qdrant_search_multi: search with the configured
threshold; for the weight-1.0 variant with zero hits retry once with the
relaxed threshold max(0.1, SCORE_THRESHOLD - 0.05). Both store calls sit in
the same try block. -/
def variantSearch (env : SearchEnv) (docIds : List String) (q : String) (w : ℚ) :
    Except Unit (List (String × ℚ)) :=
  match env.search q docIds SCORE_THRESHOLD with
  | .error e => .error e
  | .ok res =>
    if res = [] ∧ w = 1 then env.search q docIds (max (1 / 10) (SCORE_THRESHOLD - 5 / 100))
    else .ok res

/-- Loop of qdrant_search_multi over weighted query variants, aggregating
score * weight per candidate id in the insertion-ordered all_results dict;
a store failure for any variant returns [] immediately, discarding all
aggregation so far. -/
def qsmLoop (env : SearchEnv) (docIds : List String) (limit : Nat) :
    List (String × ℚ) → List (String × ℚ) → List (String × ℚ)
  | [], acc => (sortByScoreDesc acc).take limit
  | (q, w) :: rest, acc =>
    match variantSearch env docIds q w with
    | .error _ => []
    | .ok res =>
      qsmLoop env docIds limit rest (res.foldl (fun a r => dictAdd a r.1 (r.2 * w)) acc)

def qdrantSearchMulti (env : SearchEnv) (queries : List (String × ℚ))
    (docIds : List String) (limit : Nat) : List (String × ℚ) :=
  qsmLoop env docIds limit queries []

theorem qsmLoop_error (env : SearchEnv) (docIds : List String) (limit : Nat)
    (q : String) (w : ℚ) (herr : variantSearch env docIds q w = .error ()) :
    ∀ (l : List (String × ℚ)) (acc : List (String × ℚ)), (q, w) ∈ l →
      qsmLoop env docIds limit l acc = [] := by
  intro l
  induction l with
  | nil => intro acc h; simp at h
  | cons p rest ih =>
    intro acc hmem
    match p with
    | (q1, w1) =>
      rw [qsmLoop]
      match h1 : variantSearch env docIds q1 w1 with
      | .error e => rfl
      | .ok res =>
        rcases List.mem_cons.mp hmem with heq | hrest
        · rcases Prod.mk.injEq .. ▸ heq with ⟨hq, hw⟩
          subst hq; subst hw
          rw [herr] at h1
          cases h1
        · exact ih _ hrest

/-- C4: if the external vector store fails for any query variant, the whole
multi-query search returns the empty list: no partially aggregated scores
from earlier variants survive. -/
theorem multi_query_search_failure_yields_empty (env : SearchEnv)
    (queries : List (String × ℚ)) (docIds : List String) (limit : Nat)
    (q : String) (w : ℚ) (hmem : (q, w) ∈ queries)
    (herr : variantSearch env docIds q w = .error ()) :
    qdrantSearchMulti env queries docIds limit = [] :=
  qsmLoop_error env docIds limit q w herr queries [] hmem

/-- C4 witness: a store that always fails yields the empty aggregate even
though the request carries a variant. -/
theorem multi_query_search_failure_yields_empty_witness :
    qdrantSearchMulti ⟨fun _ _ _ => .error ()⟩ [("what is covered", 1)] ["doc1"] 40 = [] :=
  multi_query_search_failure_yields_empty ⟨fun _ _ _ => .error ()⟩
    [("what is covered", 1)] ["doc1"] 40 "what is covered" 1 (List.mem_singleton.mpr rfl) rfl

/-! ## Sequential question loop (process_questions_sequential, lines 750-771) -/

/-- Fixed sentinel answer appended when answering one question raises. -/
def errorSentinel : String := "Error processing the question. Please try again."

/-- Oracle for process_question: the outcome of answering the question at a
given position (the body performs external retrieval and generation calls
and can raise). -/
structure AnswerEnv where
  process : Nat → String → Except Unit String

/-- The loop of process_questions_sequential: questions answered strictly in
order; a failure for one question is caught and replaced by the sentinel,
and the loop continues. -/
def pqsLoop (env : AnswerEnv) : Nat → List String → List String
  | _, [] => []
  | i, q :: rest =>
    (match env.process i q with
     | .ok a => a
     | .error _ => errorSentinel) :: pqsLoop env (i + 1) rest

def processQuestionsSequential (env : AnswerEnv) (questions : List String) : List String :=
  pqsLoop env 0 questions

theorem pqsLoop_length (env : AnswerEnv) (l : List String) (i : Nat) :
    (pqsLoop env i l).length = l.length := by
  induction l generalizing i with
  | nil => rfl
  | cons q rest ih => simp [pqsLoop, ih]

theorem pqsLoop_get (env : AnswerEnv) (l : List String) (i : Nat) :
    ∀ (j : Nat) (q : String), l[j]? = some q →
      (pqsLoop env i l)[j]? =
        some (match env.process (i + j) q with
              | .ok a => a
              | .error _ => errorSentinel) := by
  induction l generalizing i with
  | nil => intro j q h; simp at h
  | cons q1 rest ih =>
    intro j q h
    match j with
    | 0 =>
      have : q1 = q := by simpa using h
      subst this
      simp [pqsLoop]
    | j + 1 =>
      have h1 : rest[j]? = some q := by simpa using h
      have := ih (i + 1) j q h1
      rw [pqsLoop]
      simp only [List.getElem?_cons_succ]
      rw [this]
      have harith : i + 1 + j = i + (j + 1) := by omega
      rw [harith]

/-- C6: the sequential answering loop returns exactly one answer per input
question, in input order; a failure while answering one question yields the
error sentinel at that position only, and the remaining questions are still
processed to their own outcomes. -/
theorem sequential_answers_isolated_failures (env : AnswerEnv) (questions : List String) :
    (processQuestionsSequential env questions).length = questions.length ∧
    ∀ (i : Nat) (q : String), questions[i]? = some q →
      (processQuestionsSequential env questions)[i]? =
        some (match env.process i q with
              | .ok a => a
              | .error _ => errorSentinel) := by
  constructor
  · exact pqsLoop_length env questions 0
  · intro i q h
    have := pqsLoop_get env questions 0 i q h
    rw [Nat.zero_add] at this
    exact this

/-- C6 witness: with the first question failing and the second succeeding,
the loop yields the sentinel at position 0 and the real answer at 1. -/
theorem sequential_answers_isolated_failures_witness :
    (processQuestionsSequential
        ⟨fun i _ => if i = 0 then .error () else .ok "the grace period is 30 days"⟩
        ["q1", "q2"])[0]? = some errorSentinel ∧
    (processQuestionsSequential
        ⟨fun i _ => if i = 0 then .error () else .ok "the grace period is 30 days"⟩
        ["q1", "q2"])[1]? = some "the grace period is 30 days" :=
  ⟨(sequential_answers_isolated_failures
      ⟨fun i _ => if i = 0 then .error () else .ok "the grace period is 30 days"⟩
      ["q1", "q2"]).2 0 "q1" rfl,
   (sequential_answers_isolated_failures
      ⟨fun i _ => if i = 0 then .error () else .ok "the grace period is 30 days"⟩
      ["q1", "q2"]).2 1 "q2" rfl⟩

/-! ## Context assembler (process_question, lines 731-743) -/

/-- Deduplication loop over the top candidates: seen_texts holds md5
digests of the first-200-character slice; second and later occurrences of a
digest are dropped. -/
def dedupLoop (seen : List String) : List String → List String
  | [] => []
  | t :: rest =>
    if md5 (pyTake t 200) ∈ seen then dedupLoop seen rest
    else t :: dedupLoop (md5 (pyTake t 200) :: seen) rest

/-- Context assembly of process_question: keep the first maxChunks ranked
candidates, deduplicate by prefix digest, join surviving texts with a blank
line. -/
def assembleContext (texts : List String) (maxChunks : Nat) : String :=
  String.intercalate "\n\n" (dedupLoop [] (texts.take maxChunks))

theorem dedupLoop_sublist (l : List String) (seen : List String) :
    List.Sublist (dedupLoop seen l) l := by
  induction l generalizing seen with
  | nil => exact List.Sublist.refl []
  | cons t rest ih =>
    rw [dedupLoop]
    by_cases h : md5 (pyTake t 200) ∈ seen
    · simp only [h, if_true]
      exact (ih seen).cons t
    · simp only [h, if_false]
      exact (ih _).cons₂ t

theorem dedupLoop_not_seen (l : List String) (seen : List String) :
    ∀ t ∈ dedupLoop seen l, md5 (pyTake t 200) ∉ seen := by
  induction l generalizing seen with
  | nil => intro t ht; simp [dedupLoop] at ht
  | cons a rest ih =>
    intro t ht
    rw [dedupLoop] at ht
    by_cases h : md5 (pyTake a 200) ∈ seen
    · simp only [h, if_true] at ht
      exact ih seen t ht
    · simp only [h, if_false] at ht
      rcases List.mem_cons.mp ht with h1 | h1
      · subst h1; exact h
      · intro hs
        exact ih _ t h1 (List.mem_cons_of_mem _ hs)

theorem dedupLoop_pairwise (l : List String) (seen : List String) :
    List.Pairwise (fun a b => md5 (pyTake a 200) ≠ md5 (pyTake b 200))
      (dedupLoop seen l) := by
  induction l generalizing seen with
  | nil => simp [dedupLoop]
  | cons a rest ih =>
    rw [dedupLoop]
    by_cases h : md5 (pyTake a 200) ∈ seen
    · simp only [h, if_true]
      exact ih seen
    · simp only [h, if_false]
      refine List.pairwise_cons.mpr ⟨?_, ih _⟩
      intro b hb he
      exact dedupLoop_not_seen rest _ b hb (he ▸ List.mem_cons_self _ _)

theorem dedupLoop_cover (l : List String) (seen : List String) :
    ∀ t ∈ l, md5 (pyTake t 200) ∈ seen ∨
      ∃ u ∈ dedupLoop seen l, pyTake u 200 = pyTake t 200 := by
  induction l generalizing seen with
  | nil => intro t ht; simp at ht
  | cons a rest ih =>
    intro t ht
    rw [dedupLoop]
    by_cases h : md5 (pyTake a 200) ∈ seen
    · simp only [h, if_true]
      rcases List.mem_cons.mp ht with h1 | h1
      · subst h1; exact Or.inl h
      · exact ih seen t h1
    · simp only [h, if_false]
      rcases List.mem_cons.mp ht with h1 | h1
      · subst h1
        exact Or.inr ⟨t, List.mem_cons_self _ _, rfl⟩
      · rcases ih (md5 (pyTake a 200) :: seen) t h1 with h2 | ⟨u, hu, he⟩
        · rcases List.mem_cons.mp h2 with h3 | h3
          · exact Or.inr ⟨a, List.mem_cons_self _ _, md5_injective h3.symm⟩
          · exact Or.inl h3
        · exact Or.inr ⟨u, List.mem_cons_of_mem _ hu, he⟩

/-- C8: the context assembler keeps the first maxChunks candidates in rank
order (the surviving list is a sublist), drops every later candidate whose
first-200-character prefix digest was already seen (surviving prefixes are
pairwise distinct, and two surviving candidates with the same prefix are
the same candidate, so of two candidates sharing a prefix only one
survives), every considered prefix is still represented, and the survivors
are joined with a blank-line separator. -/
theorem context_dedup_properties (texts : List String) (maxChunks : Nat) :
    List.Sublist (dedupLoop [] (texts.take maxChunks)) (texts.take maxChunks) ∧
    List.Pairwise (fun a b => md5 (pyTake a 200) ≠ md5 (pyTake b 200))
      (dedupLoop [] (texts.take maxChunks)) ∧
    (∀ t ∈ texts.take maxChunks,
      ∃ u ∈ dedupLoop [] (texts.take maxChunks), pyTake u 200 = pyTake t 200) ∧
    (∀ a ∈ dedupLoop [] (texts.take maxChunks), ∀ b ∈ dedupLoop [] (texts.take maxChunks),
      pyTake a 200 = pyTake b 200 → a = b) ∧
    assembleContext texts maxChunks =
      String.intercalate "\n\n" (dedupLoop [] (texts.take maxChunks)) := by
  refine ⟨dedupLoop_sublist _ _, dedupLoop_pairwise _ _, ?_, ?_, rfl⟩
  · intro t ht
    rcases dedupLoop_cover (texts.take maxChunks) [] t ht with h | h
    · simp at h
    · exact h
  · intro a ha b hb he
    by_contra hne
    exact (List.Pairwise.forall (fun x y hxy => (hxy ∘ Eq.symm))
      (dedupLoop_pairwise (texts.take maxChunks) []) ha hb hne) (congrArg md5 he)

/-- C8 witness: of two candidates with an identical 200-character prefix,
the assembled list keeps a single representative. -/
theorem context_dedup_properties_witness :
    ∃ u ∈ dedupLoop [] (["alpha chunk body", "alpha chunk body", "beta"].take 8),
      pyTake u 200 = pyTake "beta" 200 :=
  (context_dedup_properties ["alpha chunk body", "alpha chunk body", "beta"] 8).2.2.1
    "beta" (by decide)

/-! ## Reranker adapter (rerank_candidates, lines 626-655) -/

/-- A retrieval candidate: the payload text plus the rerank_score the
success path attaches (the other payload fields never influence
rerank_candidates). -/
structure Cand where
  text : String
  rerankScore : Option ℚ
deriving DecidableEq, Repr

/-- Cohere oracle: query, document texts and top_n yield (index,
relevance_score) result pairs, or a raised error; `none` models an
unconfigured reranker (falsy `co`). -/
structure RerankEnv where
  co : Option (String → List String → Nat → Except Unit (List (Nat × ℚ)))

/-- rerank_candidates: empty pool short-circuits; an unconfigured reranker
returns the first top_n candidates unchanged; otherwise the pool is capped
at 100 before the external call and the result indices are mapped back over
the capped pool attaching relevance scores; any failure inside the try
block (including an out-of-range result index) falls back to the original
order truncated to top_n. -/
def rerankCandidates (env : RerankEnv) (query : String) (cands : List Cand)
    (topN : Nat) : List Cand :=
  if cands = [] then []
  else
    match env.co with
    | none => cands.take topN
    | some f =>
      let pool := if 100 < cands.length then cands.take 100 else cands
      let texts := pool.map Cand.text
      match f query texts (min topN texts.length) with
      | .error _ => cands.take topN
      | .ok results =>
        match results.mapM (fun r =>
            (pool[r.1]?).map (fun c => { c with rerankScore := some r.2 })) with
        | some picked => picked
        | none => cands.take topN

/-- C9: for a non-empty candidate list, an unconfigured reranker makes
rerank return exactly the first top_n candidates unchanged, and a failing
external reranker call falls back to the original order truncated to top_n
instead of failing the request. -/
theorem rerank_fallback_properties (env : RerankEnv) (query : String)
    (cands : List Cand) (topN : Nat) (hne : cands ≠ []) :
    (env.co = none → rerankCandidates env query cands topN = cands.take topN) ∧
    (∀ f, env.co = some f →
      f query ((if 100 < cands.length then cands.take 100 else cands).map Cand.text)
        (min topN ((if 100 < cands.length then cands.take 100 else cands).map
          Cand.text).length) = .error () →
      rerankCandidates env query cands topN = cands.take topN) := by
  constructor
  · intro hco
    rw [rerankCandidates, if_neg hne, hco]
  · intro f hco herr
    rw [rerankCandidates, if_neg hne, hco]
    simp only [herr]

/-- C9 witness: an unconfigured reranker and a failing reranker both
return the truncated original order on a concrete pool. -/
theorem rerank_fallback_properties_witness :
    rerankCandidates ⟨none⟩ "q" [Cand.mk "first chunk" none, Cand.mk "second chunk" none] 1 =
      List.take 1 [Cand.mk "first chunk" none, Cand.mk "second chunk" none] ∧
    rerankCandidates ⟨some fun _ _ _ => .error ()⟩ "q"
        [Cand.mk "first chunk" none, Cand.mk "second chunk" none] 1 =
      List.take 1 [Cand.mk "first chunk" none, Cand.mk "second chunk" none] :=
  ⟨(rerank_fallback_properties ⟨none⟩ "q"
      [Cand.mk "first chunk" none, Cand.mk "second chunk" none] 1 (by decide)).1 rfl,
   (rerank_fallback_properties ⟨some fun _ _ _ => .error ()⟩ "q"
      [Cand.mk "first chunk" none, Cand.mk "second chunk" none] 1 (by decide)).2
      (fun _ _ _ => .error ()) rfl rfl⟩

/-! ## Query enhancer (QueryEnhancer.generate_query_variants, lines 149-186) -/

/-- Substring test on character lists (Python `needle in hay`). -/
def isSubstr (needle hay : List Char) : Bool :=
  (List.range (hay.length + 1)).any fun i => needle.isPrefixOf (hay.drop i)

/-- Length of the maximal whitespace run at the head (the greedy match of
one regex token since a backslash-s run cannot reach into a letter). -/
def wsRun : List Char → Nat
  | [] => 0
  | c :: l => if c.isWhitespace then wsRun l + 1 else 0

/-- Number of characters consumed by a match of the first split
alternative, whitespace-and-whitespace (case-insensitive), at the head of
the list; 0 when it does not match here. -/
def andSepLen (l : List Char) : Nat :=
  let w1 := wsRun l
  if w1 = 0 then 0
  else
    match l.drop w1 with
    | a :: n :: d :: rest =>
      if a.toLower = 'a' ∧ n.toLower = 'n' ∧ d.toLower = 'd' then
        let w2 := wsRun rest
        if w2 = 0 then 0 else w1 + 3 + w2
      else 0
    | _ => 0

/-- Number of characters consumed by a match of the second split
alternative, a comma followed by optional whitespace, at the head. -/
def commaSepLen : List Char → Nat
  | ',' :: rest => 1 + wsRun rest
  | _ => 0

/-- Characters consumed by the leftmost-alternative separator match at the
head (the two alternatives start with disjoint characters, so the regex
alternation order is immaterial). -/
def sepLen (l : List Char) : Nat :=
  if andSepLen l = 0 then commaSepLen l else andSepLen l

/-- The scan of re.split over the compound-question separator pattern:
each position either starts a separator match (closing the current field)
or contributes to the current field. The fuel argument is the length of the
remaining input, enough because every step consumes at least one
character. -/
def pySplitAux : Nat → List Char → List Char → List (List Char)
  | _, [], acc => [acc.reverse]
  | 0, l, acc => [acc.reverse ++ l]
  | fuel + 1, c :: rest, acc =>
    let n := sepLen (c :: rest)
    if n = 0 then pySplitAux fuel rest (c :: acc)
    else acc.reverse :: pySplitAux fuel ((c :: rest).drop n) []

/-- re.split of the compound-question pattern used by the source. -/
def pySplitCompound (s : String) : List String :=
  (pySplitAux s.data.length s.data []).map fun l => ⟨l⟩

/-- Python query.split(): whitespace-separated words, empties dropped. -/
def pyWords (s : String) : List String :=
  ((s.data.splitOnP Char.isWhitespace).filter fun w => w ≠ []).map fun l => ⟨l⟩

/-- The findall loop for double-quoted phrases: scan to an opening quote,
capture the non-empty run up to the closing quote, continue after it. -/
def quotedAux : Nat → List Char → List String
  | 0, _ => []
  | _ + 1, [] => []
  | fuel + 1, c :: rest =>
    if c = '"' then
      match rest.takeWhile (fun x => x ≠ '"'), rest.dropWhile (fun x => x ≠ '"') with
      | [], _ => quotedAux fuel rest
      | body, '"' :: rest1 => String.mk body :: quotedAux fuel rest1
      | _, _ => []
    else quotedAux fuel rest

def quotedPhrases (s : String) : List String := quotedAux s.data.length s.data

/-- Python regex word characters (ASCII approximation of backslash-w). -/
def isWordChar (c : Char) : Bool := c.isAlphanum || c = '_'

/-- The findall loop for numeric tokens (digits, optional decimal part,
optional percent sign). The flag tracks whether the previous character was
a word character, giving the leading word boundary; the trailing-boundary
backtracking of the Python regex is simplified. The theorems below rely
only on the fact that this helper contributes extra key terms, never on
their exact shape. -/
def numTokAux : Nat → List Char → Bool → List String
  | 0, _, _ => []
  | _ + 1, [], _ => []
  | fuel + 1, c :: rest, prevWord =>
    if c.isDigit && !prevWord then
      let intPart := (c :: rest).takeWhile Char.isDigit
      let r1 := (c :: rest).dropWhile Char.isDigit
      let withFrac :=
        match r1 with
        | '.' :: r =>
          if r.takeWhile Char.isDigit = [] then (intPart, r1)
          else (intPart ++ '.' :: r.takeWhile Char.isDigit, r.dropWhile Char.isDigit)
        | _ => (intPart, r1)
      let withPct :=
        match withFrac.2 with
        | '%' :: r => (withFrac.1 ++ ['%'], r)
        | _ => withFrac
      String.mk withPct.1 :: numTokAux fuel withPct.2 false
    else numTokAux fuel rest (isWordChar c)

def numberTokens (s : String) : List String := numTokAux s.data.length s.data false

/-- Head character is an ASCII uppercase letter (Python w[0].isupper()). -/
def headIsUpper (s : String) : Bool :=
  match s.data with
  | [] => false
  | c :: _ => c.isUpper

/-- The compound-question rule: when the lowered question contains a
conjunction marker and splits into 2-3 parts, every stripped part longer
than 10 characters is added at weight 0.7. -/
def compoundParts (query : String) : List (String × ℚ) :=
  if isSubstr " and ".data (pyLower query).data || isSubstr ", ".data (pyLower query).data then
    let parts := pySplitCompound query
    if 1 < parts.length ∧ parts.length ≤ 3 then
      ((parts.map pyStrip).filter fun p => 10 < pyLen p).map fun p => (p, (7 : ℚ) / 10)
    else []
  else []

/-- The long-question rule: for questions over 20 words, quoted phrases,
up to 5 capitalized words and numeric tokens are joined into a simplified
variant at weight 0.5 when non-trivial and different from the original. -/
def simplifiedVariant (query : String) : List (String × ℚ) :=
  if 20 < (pyWords query).length then
    let keyTerms := quotedPhrases query ++
      ((pyWords query).filter fun w => headIsUpper w ∧ 2 < pyLen w).take 5 ++
      numberTokens query
    if keyTerms ≠ [] then
      let simplified := String.intercalate " " keyTerms
      if simplified ≠ query ∧ 5 < pyLen simplified then [(simplified, (1 : ℚ) / 2)]
      else []
    else []
  else []

/-- generate_query_variants: the original question at weight 1.0 first,
then the additively applied rules, truncated to 3 variants. -/
def generateQueryVariants (query : String) : List (String × ℚ) :=
  ((query, (1 : ℚ)) :: (compoundParts query ++ simplifiedVariant query)).take 3

/-- C5: every call returns at most 3 weighted variants and the first is
always the original question at weight 1.0; for the concrete question
"What is the penalty and what is the grace period?" the list contains the
original at weight 1.0 and a split part at weight 0.7. -/
theorem query_variants_bounded_and_front_original :
    (∀ query : String, (generateQueryVariants query).length ≤ 3 ∧
      (generateQueryVariants query).get? 0 = some (query, (1 : ℚ))) ∧
    (("What is the penalty and what is the grace period?", (1 : ℚ)) ∈
      generateQueryVariants "What is the penalty and what is the grace period?" ∧
     ("What is the penalty", (7 : ℚ) / 10) ∈
      generateQueryVariants "What is the penalty and what is the grace period?") := by
  refine ⟨fun query => ⟨List.length_take_le _ _,
    show (generateQueryVariants query).get? 0 = some (query, (1 : ℚ)) from rfl⟩, ?_, ?_⟩
  · exact List.get?_mem
      (show (generateQueryVariants
        "What is the penalty and what is the grace period?").get? 0 =
        some ("What is the penalty and what is the grace period?", (1 : ℚ)) from rfl)
  · exact List.get?_mem
      (show (generateQueryVariants
        "What is the penalty and what is the grace period?").get? 1 =
        some ("What is the penalty", (7 : ℚ) / 10) from rfl)

/-! ## Embedding client with cache and retry
(embed_texts_batch_with_retry, lines 316-360)

The function threads three pieces of state: the process-wide
embedding_cache dict, the embeddings output array, and the sequence of
external calls. The external provider is an oracle: `embedFn` gives the
(deterministic) vector returned for a text, `outcome` classifies the n-th
external call as success, a rate-limit error (substring "rate" in the
message) or any other error, and `jitter` is the np.random.uniform(0, 1)
draw used in the backoff wait. `clean` models clean_for_embedding, the pure
text normalization applied up front when use_clean is set; vectors are
opaque values. The fixed 200 ms inter-batch delay is not observable in any
claim and is not recorded. -/

/-- The embedding_cache dict: fingerprint to vector. -/
abbrev Cache := List (String × Nat)

inductive CallResult
  | ok
  | rateLimited
  | fatal
deriving DecidableEq, Repr

structure EmbedEnv where
  clean : String → String
  embedFn : String → Nat
  outcome : Nat → CallResult
  jitter : Nat → ℚ

/-- What one embed call returns and leaves behind: the embeddings array
(None entries stay unfilled), the cache afterwards, the log of external
calls (each the text list sent) and the backoff sleeps performed. -/
structure EmbedResult where
  embeddings : List (Option Nat)
  cache : Cache
  calls : List (List String)
  sleeps : List ℚ

/-- One cache store `embedding_cache[md5(text)] = vec` for a (position,
text) pair of the miss list. -/
def cacheWrite (env : EmbedEnv) (c : Cache) (p : Nat × String) : Cache :=
  (md5 p.2, env.embedFn p.2) :: c

/-- One output store `embeddings[i] = vec`. -/
def embWrite (env : EmbedEnv) (e : List (Option Nat)) (p : Nat × String) :
    List (Option Nat) :=
  e.set p.1 (some (env.embedFn p.2))

/-- The retry loop `while retry_count < max_retries` for one batch. `fuel`
is max_retries - retry_count and `rc` the current retry_count; `ctr`
counts external calls issued so far. On success the batch writes cache and
output and breaks; on a rate-limit outcome it sleeps
2^(retry_count+1) + jitter and retries; on any other failure the error
propagates. When the fuel runs out the loop exits with no write and no
error. -/
def runBatch (env : EmbedEnv) (batch : List (Nat × String)) :
    Nat → Nat → Nat → Cache → List (Option Nat) →
    Except Unit (Cache × List (Option Nat) × Nat × List (List String) × List ℚ)
  | 0, _, ctr, cache, emb => .ok (cache, emb, ctr, [], [])
  | fuel + 1, rc, ctr, cache, emb =>
    match env.outcome ctr with
    | .ok =>
      .ok (batch.foldl (cacheWrite env) cache, batch.foldl (embWrite env) emb,
        ctr + 1, [batch.map Prod.snd], [])
    | .rateLimited =>
      match runBatch env batch fuel (rc + 1) (ctr + 1) cache emb with
      | .ok (c, e, ct, calls, sleeps) =>
        .ok (c, e, ct, batch.map Prod.snd :: calls,
          ((2 : ℚ) ^ (rc + 1) + env.jitter (rc + 1)) :: sleeps)
      | .error u => .error u
    | .fatal => .error ()

/-- The outer loop over the batches of uncached texts, each batch run with
max_retries = 3 starting at retry_count = 0. -/
def runBatches (env : EmbedEnv) :
    List (List (Nat × String)) → Nat → Cache → List (Option Nat) →
    Except Unit (Cache × List (Option Nat) × Nat × List (List String) × List ℚ)
  | [], ctr, cache, emb => .ok (cache, emb, ctr, [], [])
  | b :: bs, ctr, cache, emb =>
    match runBatch env b 3 0 ctr cache emb with
    | .error u => .error u
    | .ok (c, e, ct, calls1, sleeps1) =>
      match runBatches env bs ct c e with
      | .error u => .error u
      | .ok (c2, e2, ct2, calls2, sleeps2) =>
        .ok (c2, e2, ct2, calls1 ++ calls2, sleeps1 ++ sleeps2)

/-- Consecutive slices: each batch is the head plus the next n elements
(fuel-driven, fuel at least the list length). -/
def chunksOfAux {α : Type} (n : Nat) : Nat → List α → List (List α)
  | _, [] => []
  | 0, l => [l]
  | fuel + 1, a :: l => (a :: l.take n) :: chunksOfAux n fuel (l.drop n)

/-- The batching `range(0, len(to_embed), EMBEDDING_BATCH_SIZE)` with
EMBEDDING_BATCH_SIZE = 10: slices of 10. -/
def batchesOf {α : Type} (l : List α) : List (List α) := chunksOfAux 9 l.length l

/-- The cleaned text list (use_clean path). -/
def cleanTexts (env : EmbedEnv) (texts0 : List String) : List String :=
  texts0.map env.clean

/-- The initial embeddings array: cached vector for a hit, None for a
miss. -/
def initEmb (cache0 : Cache) (texts : List String) : List (Option Nat) :=
  texts.map fun t => dlookup cache0 (md5 t)

/-- The miss list (to_embed zipped with idxs): positions and texts whose
fingerprint is not cached. -/
def missList (cache0 : Cache) (texts : List String) : List (Nat × String) :=
  texts.enum.filter fun p => (dlookup cache0 (md5 p.2)).isNone

/-- embed_texts_batch_with_retry: clean, split into hits and misses, embed
the misses in batches of 10 under the retry policy, and return the filled
embeddings array together with the updated cache. -/
def embedTextsBatchWithRetry (env : EmbedEnv) (cache0 : Cache) (texts0 : List String) :
    Except Unit EmbedResult :=
  if (missList cache0 (cleanTexts env texts0)).isEmpty then
    .ok ⟨initEmb cache0 (cleanTexts env texts0), cache0, [], []⟩
  else
    match runBatches env (batchesOf (missList cache0 (cleanTexts env texts0))) 0 cache0
        (initEmb cache0 (cleanTexts env texts0)) with
    | .error u => .error u
    | .ok (c, e, _, calls, sleeps) => .ok ⟨e, c, calls, sleeps⟩

/-- C1 exhibit: with a single uncached text whose external calls are all
classified as rate limits, the client makes exactly 3 attempts, sleeping
2^1, 2^2 and 2^3 (+ jitter) after them, and then returns WITHOUT an error,
leaving the embeddings entry unfilled (None) — the exhausted rate-limit
error is absorbed, not propagated. A failure not classified as a rate
limit, in contrast, propagates immediately. -/
theorem embed_retry_exhaustion_absorbed :
    embedTextsBatchWithRetry
      ⟨id, fun _ => 0, fun _ => .rateLimited, fun _ => 0⟩ [] ["policy text"] =
      .ok ⟨[none], [],
        [["policy text"], ["policy text"], ["policy text"]],
        [(2 : ℚ) ^ (1 : ℕ) + 0, (2 : ℚ) ^ (2 : ℕ) + 0, (2 : ℚ) ^ (3 : ℕ) + 0]⟩ ∧
    embedTextsBatchWithRetry
      ⟨id, fun _ => 0, fun _ => .fatal, fun _ => 0⟩ [] ["policy text"] = .error () :=
  ⟨rfl, rfl⟩

theorem runBatch_ok_cases (env : EmbedEnv) (batch : List (Nat × String)) :
    ∀ (fuel rc ctr : Nat) (cache : Cache) (emb : List (Option Nat))
      (c : Cache) (e : List (Option Nat)) (ct : Nat) (calls : List (List String))
      (sleeps : List ℚ),
      runBatch env batch fuel rc ctr cache emb = .ok (c, e, ct, calls, sleeps) →
      ((c = cache ∧ e = emb) ∨
        (c = batch.foldl (cacheWrite env) cache ∧ e = batch.foldl (embWrite env) emb)) ∧
      ∀ l ∈ calls, l = batch.map Prod.snd := by
  intro fuel
  induction fuel with
  | zero =>
    intro rc ctr cache emb c e ct calls sleeps h
    rw [runBatch] at h
    simp only [Except.ok.injEq, Prod.mk.injEq] at h
    obtain ⟨h1, h2, _, h4, _⟩ := h
    refine ⟨Or.inl ⟨h1.symm, h2.symm⟩, ?_⟩
    rw [← h4]
    intro l hl
    simp at hl
  | succ fuel ih =>
    intro rc ctr cache emb c e ct calls sleeps h
    rw [runBatch] at h
    split at h
    · -- outcome ok
      simp only [Except.ok.injEq, Prod.mk.injEq] at h
      obtain ⟨h1, h2, _, h4, _⟩ := h
      refine ⟨Or.inr ⟨h1.symm, h2.symm⟩, ?_⟩
      rw [← h4]
      intro l hl
      simpa using hl
    · -- outcome rateLimited: split again on the recursive call
      split at h
      · rename_i c1 e1 ct1 calls1 sleeps1 hrec
        simp only [Except.ok.injEq, Prod.mk.injEq] at h
        obtain ⟨h1, h2, _, h4, _⟩ := h
        obtain ⟨hcases, hcalls⟩ :=
          ih (rc + 1) (ctr + 1) cache emb c1 e1 ct1 calls1 sleeps1 hrec
        subst h1 h2
        refine ⟨hcases, ?_⟩
        rw [← h4]
        intro l hl
        rcases List.mem_cons.mp hl with h | h
        · exact h
        · exact hcalls l h
      · exact absurd h (by simp)
    · -- outcome fatal
      exact absurd h (by simp)

theorem runBatches_ok_chars (env : EmbedEnv) :
    ∀ (bs : List (List (Nat × String))) (ctr : Nat) (cache : Cache)
      (emb : List (Option Nat)) (c : Cache) (e : List (Option Nat)) (ct : Nat)
      (calls : List (List String)) (sleeps : List ℚ),
      runBatches env bs ctr cache emb = .ok (c, e, ct, calls, sleeps) →
      ∃ J : List (Nat × String),
        (∀ p ∈ J, ∃ b ∈ bs, p ∈ b) ∧
        c = J.foldl (cacheWrite env) cache ∧
        e = J.foldl (embWrite env) emb ∧
        ∀ l ∈ calls, ∃ b ∈ bs, l = b.map Prod.snd := by
  intro bs
  induction bs with
  | nil =>
    intro ctr cache emb c e ct calls sleeps h
    rw [runBatches] at h
    simp only [Except.ok.injEq, Prod.mk.injEq] at h
    obtain ⟨h1, h2, _, h4, _⟩ := h
    refine ⟨[], by simp, h1.symm, h2.symm, ?_⟩
    rw [← h4]
    intro l hl
    simp at hl
  | cons b bs ih =>
    intro ctr cache emb c e ct calls sleeps h
    rw [runBatches] at h
    split at h
    · exact absurd h (by simp)
    · rename_i c1 e1 ct1 calls1 sleeps1 heq1
      split at h
      · exact absurd h (by simp)
      · rename_i c2 e2 ct2 calls2 sleeps2 heq2
        simp only [Except.ok.injEq, Prod.mk.injEq] at h
        obtain ⟨h1, h2, _, h4, _⟩ := h
        obtain ⟨J2, hJ2src, hc2, he2, hcalls2⟩ :=
          ih ct1 c1 e1 c2 e2 ct2 calls2 sleeps2 heq2
        obtain ⟨hcases, hcalls1⟩ :=
          runBatch_ok_cases env b 3 0 ctr cache emb c1 e1 ct1 calls1 sleeps1 heq1
        have hcallsall : ∀ l ∈ calls, ∃ bb ∈ b :: bs, l = bb.map Prod.snd := by
          intro l hl
          rw [← h4] at hl
          rcases List.mem_append.mp hl with hl1 | hl2
          · exact ⟨b, List.mem_cons_self _ _, hcalls1 l hl1⟩
          · obtain ⟨b2, hb2, hlb2⟩ := hcalls2 l hl2
            exact ⟨b2, List.mem_cons_of_mem _ hb2, hlb2⟩
        rcases hcases with ⟨hc1, he1⟩ | ⟨hc1, he1⟩
        · refine ⟨J2, ?_, ?_, ?_, hcallsall⟩
          · intro p hp
            obtain ⟨b2, hb2, hpb2⟩ := hJ2src p hp
            exact ⟨b2, List.mem_cons_of_mem _ hb2, hpb2⟩
          · rw [← h1, hc2, hc1]
          · rw [← h2, he2, he1]
        · refine ⟨b ++ J2, ?_, ?_, ?_, hcallsall⟩
          · intro p hp
            rcases List.mem_append.mp hp with hp1 | hp2
            · exact ⟨b, List.mem_cons_self _ _, hp1⟩
            · obtain ⟨b2, hb2, hpb2⟩ := hJ2src p hp2
              exact ⟨b2, List.mem_cons_of_mem _ hb2, hpb2⟩
          · rw [← h1, hc2, hc1, List.foldl_append]
          · rw [← h2, he2, he1, List.foldl_append]

theorem chunksOfAux_flatten {α : Type} (n : Nat) :
    ∀ (fuel : Nat) (l : List α), l.length ≤ fuel →
      (chunksOfAux n fuel l).flatten = l := by
  intro fuel
  induction fuel with
  | zero =>
    intro l hl
    match l with
    | [] => rfl
    | a :: l => simp at hl
  | succ fuel ih =>
    intro l _
    match l with
    | [] => rfl
    | a :: l =>
      rename_i hl
      rw [chunksOfAux, List.flatten_cons,
        ih (l.drop n) (by rw [List.length_drop]; simp at hl; omega)]
      simp [List.take_append_drop]

theorem mem_of_mem_batchesOf {α : Type} {l : List α} {b : List α} {p : α}
    (hb : b ∈ batchesOf l) (hp : p ∈ b) : p ∈ l := by
  have hj : p ∈ (chunksOfAux 9 l.length l).flatten := List.mem_flatten.mpr ⟨b, hb, hp⟩
  rwa [chunksOfAux_flatten 9 l.length l (Nat.le_refl _)] at hj

theorem foldl_cacheWrite_no_key (env : EmbedEnv) :
    ∀ (J : List (Nat × String)) (cache : Cache) (k : String),
      (∀ p ∈ J, md5 p.2 ≠ k) →
      dlookup (J.foldl (cacheWrite env) cache) k = dlookup cache k := by
  intro J
  induction J with
  | nil => intro cache k _; rfl
  | cons p J ih =>
    intro cache k h
    rw [List.foldl_cons, ih _ k fun q hq => h q (List.mem_cons_of_mem _ hq)]
    rw [cacheWrite, dlookup_cons, if_neg (h p (List.mem_cons_self _ _))]

theorem foldl_cacheWrite_persist (env : EmbedEnv) :
    ∀ (J : List (Nat × String)) (cache : Cache) (k : String) (v : Nat),
      dlookup cache k = some v →
      (∀ p ∈ J, md5 p.2 = k → env.embedFn p.2 = v) →
      dlookup (J.foldl (cacheWrite env) cache) k = some v := by
  intro J
  induction J with
  | nil => intro cache k v hv _; exact hv
  | cons p J ih =>
    intro cache k v hv h
    rw [List.foldl_cons]
    refine ih _ k v ?_ fun q hq hqk => h q (List.mem_cons_of_mem _ hq) hqk
    rw [cacheWrite, dlookup_cons]
    by_cases hk : md5 p.2 = k
    · rw [if_pos hk, h p (List.mem_cons_self _ _) hk]
    · rw [if_neg hk]
      exact hv

theorem foldl_cacheWrite_written (env : EmbedEnv) :
    ∀ (J : List (Nat × String)) (cache : Cache) (k : String) (v : Nat),
      (∃ p ∈ J, md5 p.2 = k) →
      (∀ p ∈ J, md5 p.2 = k → env.embedFn p.2 = v) →
      dlookup (J.foldl (cacheWrite env) cache) k = some v := by
  intro J
  induction J with
  | nil => intro cache k v hex _; simp at hex
  | cons p J ih =>
    intro cache k v hex h
    rw [List.foldl_cons]
    by_cases hk : md5 p.2 = k
    · refine foldl_cacheWrite_persist env J _ k v ?_
        fun q hq hqk => h q (List.mem_cons_of_mem _ hq) hqk
      rw [cacheWrite, dlookup_cons, if_pos hk, h p (List.mem_cons_self _ _) hk]
    · obtain ⟨q, hq, hqk⟩ := hex
      rcases List.mem_cons.mp hq with heq | hq1
      · exact absurd (heq ▸ hqk) hk
      · exact ih _ k v ⟨q, hq1, hqk⟩
          fun q2 hq2 hq2k => h q2 (List.mem_cons_of_mem _ hq2) hq2k

theorem foldl_embWrite_no_index (env : EmbedEnv) :
    ∀ (J : List (Nat × String)) (emb : List (Option Nat)) (i : Nat),
      (∀ p ∈ J, p.1 ≠ i) →
      (J.foldl (embWrite env) emb)[i]? = emb[i]? := by
  intro J
  induction J with
  | nil => intro emb i _; rfl
  | cons p J ih =>
    intro emb i h
    rw [List.foldl_cons, ih _ i fun q hq => h q (List.mem_cons_of_mem _ hq)]
    exact List.getElem?_set_ne (h p (List.mem_cons_self _ _))

theorem foldl_embWrite_cases (env : EmbedEnv) :
    ∀ (J : List (Nat × String)) (emb : List (Option Nat)) (i : Nat) (t : String),
      i < emb.length →
      (∀ p ∈ J, p.1 = i → p.2 = t) →
      ((∀ p ∈ J, p.1 ≠ i) ∧ (J.foldl (embWrite env) emb)[i]? = emb[i]?) ∨
      ((∃ p ∈ J, p.1 = i) ∧
        (J.foldl (embWrite env) emb)[i]? = some (some (env.embedFn t))) := by
  intro J
  induction J with
  | nil =>
    intro emb i t _ _
    exact Or.inl ⟨by simp, rfl⟩
  | cons p J ih =>
    intro emb i t hi hf
    rw [List.foldl_cons]
    have hlen : i < (embWrite env emb p).length := by
      rw [embWrite, List.length_set]
      exact hi
    by_cases hp : p.1 = i
    · have hpt : p.2 = t := hf p (List.mem_cons_self _ _) hp
      have hset : (embWrite env emb p)[i]? = some (some (env.embedFn t)) := by
        rw [embWrite, hp, hpt]
        exact List.getElem?_set_self hi
      rcases ih (embWrite env emb p) i t hlen
          (fun q hq hqi => hf q (List.mem_cons_of_mem _ hq) hqi) with ⟨_, heq⟩ | ⟨_, heq⟩
      · exact Or.inr ⟨⟨p, List.mem_cons_self _ _, hp⟩, heq.trans hset⟩
      · exact Or.inr ⟨⟨p, List.mem_cons_self _ _, hp⟩, heq⟩
    · have hset : (embWrite env emb p)[i]? = emb[i]? :=
        List.getElem?_set_ne hp
      rcases ih (embWrite env emb p) i t hlen
          (fun q hq hqi => hf q (List.mem_cons_of_mem _ hq) hqi) with ⟨hno, heq⟩ | ⟨hex, heq⟩
      · refine Or.inl ⟨?_, heq.trans hset⟩
        intro q hq
        rcases List.mem_cons.mp hq with heq1 | hq1
        · exact heq1 ▸ hp
        · exact hno q hq1
      · obtain ⟨q, hq, hqi⟩ := hex
        exact Or.inr ⟨⟨q, List.mem_cons_of_mem _ hq, hqi⟩, heq⟩

theorem mem_missList {cache0 : Cache} {texts : List String} {p : Nat × String}
    (hp : p ∈ missList cache0 texts) :
    texts[p.1]? = some p.2 ∧ dlookup cache0 (md5 p.2) = none := by
  rw [missList] at hp
  obtain ⟨hmem, hcond⟩ := List.mem_filter.mp hp
  obtain ⟨i, x⟩ := p
  obtain ⟨hlt, hx⟩ := List.mem_enum hmem
  refine ⟨?_, Option.isNone_iff_eq_none.mp hcond⟩
  exact List.getElem?_eq_some.mpr ⟨hlt, hx.symm⟩

/-- C7: a text whose fingerprint is cached is returned from the cache with
no external call containing it; the cache entry for that fingerprint is
unchanged when the call returns (stable across calls); and every uncached
text whose embeddings entry got filled was embedded by the provider and its
vector stored in the cache under its fingerprint before the call
returned. -/
theorem embedding_cache_hit_no_call_and_stable (env : EmbedEnv) (cache0 : Cache)
    (texts0 : List String) (r : EmbedResult)
    (hok : embedTextsBatchWithRetry env cache0 texts0 = .ok r) :
    (∀ t v, dlookup cache0 (md5 (env.clean t)) = some v →
      (∀ b ∈ r.calls, env.clean t ∉ b) ∧
      (∀ i : Nat, texts0[i]? = some t → r.embeddings[i]? = some (some v)) ∧
      dlookup r.cache (md5 (env.clean t)) = some v) ∧
    (∀ (i : Nat) (t : String), texts0[i]? = some t →
      dlookup cache0 (md5 (env.clean t)) = none →
      ∀ w, r.embeddings[i]? = some (some w) →
        w = env.embedFn (env.clean t) ∧
        dlookup r.cache (md5 (env.clean t)) = some w) := by
  have htexts : ∀ (i : Nat) (t : String), texts0[i]? = some t →
      (cleanTexts env texts0)[i]? = some (env.clean t) := by
    intro i t hi
    rw [cleanTexts, List.getElem?_map, hi]
    rfl
  have hinit : ∀ (i : Nat) (t : String), texts0[i]? = some t →
      (initEmb cache0 (cleanTexts env texts0))[i]? =
        some (dlookup cache0 (md5 (env.clean t))) := by
    intro i t hi
    rw [initEmb, List.getElem?_map, htexts i t hi]
    rfl
  rw [embedTextsBatchWithRetry] at hok
  split at hok
  · -- all texts cached: no batch runs
    simp only [Except.ok.injEq] at hok
    subst hok
    constructor
    · intro t v hv
      refine ⟨?_, ?_, hv⟩
      · intro b hb
        simp at hb
      · intro i hi
        show (initEmb cache0 (cleanTexts env texts0))[i]? = some (some v)
        rw [hinit i t hi, hv]
    · intro i t hi hnone w hw
      have : (initEmb cache0 (cleanTexts env texts0))[i]? = some none := by
        rw [hinit i t hi, hnone]
      exact absurd (this ▸ hw) (by simp)
  · -- at least one miss: the batch loop ran
    rename_i hne
    split at hok
    · exact absurd hok (by simp)
    · rename_i c e ct calls sleeps heq
      simp only [Except.ok.injEq] at hok
      subst hok
      obtain ⟨J, hJsrc, hc, he, hcallsJ⟩ :=
        runBatches_ok_chars env _ 0 cache0 _ c e ct calls sleeps heq
      have hJM : ∀ p ∈ J, p ∈ missList cache0 (cleanTexts env texts0) := by
        intro p hp
        obtain ⟨b, hb, hpb⟩ := hJsrc p hp
        exact mem_of_mem_batchesOf hb hpb
      have hJfacts : ∀ p ∈ J,
          (cleanTexts env texts0)[p.1]? = some p.2 ∧
            dlookup cache0 (md5 p.2) = none :=
        fun p hp => mem_missList (hJM p hp)
      constructor
      · -- cached text
        intro t v hv
        refine ⟨?_, ?_, ?_⟩
        · -- no external call carries the cleaned text
          intro b hb habs
          obtain ⟨bb, hbb, hbmap⟩ := hcallsJ b hb
          rw [hbmap] at habs
          obtain ⟨p, hpbb, hp2⟩ := List.mem_map.mp habs
          have hpM := mem_missList (mem_of_mem_batchesOf hbb hpbb)
          rw [hp2] at hpM
          rw [hpM.2] at hv
          cases hv
        · -- cached vector is returned at every position of the text
          intro i hi
          have hnoJ : ∀ p ∈ J, p.1 ≠ i := by
            intro p hp hpi
            have h1 := (hJfacts p hp).1
            rw [hpi, htexts i t hi] at h1
            have hp2 : p.2 = env.clean t := (Option.some_inj.mp h1).symm
            have h2 := (hJfacts p hp).2
            rw [hp2, hv] at h2
            cases h2
          show e[i]? = some (some v)
          rw [he, foldl_embWrite_no_index env J _ i hnoJ, hinit i t hi, hv]
        · -- the cache entry is untouched
          have hnokey : ∀ p ∈ J, md5 p.2 ≠ md5 (env.clean t) := by
            intro p hp habs
            have h2 := (hJfacts p hp).2
            rw [md5_injective habs] at h2
            rw [h2] at hv
            cases hv
          show dlookup c (md5 (env.clean t)) = some v
          rw [hc, foldl_cacheWrite_no_key env J cache0 _ hnokey]
          exact hv
      · -- uncached text whose entry was filled
        intro i t hi hnone w hw
        have hticlean := htexts i t hi
        have hilen : i < (initEmb cache0 (cleanTexts env texts0)).length := by
          rw [initEmb, List.length_map]
          exact (List.getElem?_eq_some.mp hticlean).1
        have hfun : ∀ p ∈ J, p.1 = i → p.2 = env.clean t := by
          intro p hp hpi
          have h1 := (hJfacts p hp).1
          rw [hpi, hticlean] at h1
          exact (Option.some_inj.mp h1).symm
        rcases foldl_embWrite_cases env J _ i (env.clean t) hilen hfun with
          ⟨_, hval⟩ | ⟨⟨p0, hp0, hp0i⟩, hval⟩
        · -- never written: the entry stayed None, contradiction
          rw [he] at hw
          rw [hval, hinit i t hi, hnone] at hw
          exact absurd hw (by simp)
        · -- written with the provider vector and cached
          rw [he] at hw
          rw [hval] at hw
          have hwv : w = env.embedFn (env.clean t) := by
            have := (Option.some.injEq _ _ |>.mp hw)
            exact (Option.some.injEq _ _ |>.mp this).symm
          refine ⟨hwv, ?_⟩
          have hkeys : ∀ p ∈ J, md5 p.2 = md5 (env.clean t) →
              env.embedFn p.2 = env.embedFn (env.clean t) := by
            intro p hp hk
            rw [md5_injective hk]
          have hex : ∃ p ∈ J, md5 p.2 = md5 (env.clean t) := by
            refine ⟨p0, hp0, ?_⟩
            rw [hfun p0 hp0 hp0i]
          show dlookup c (md5 (env.clean t)) = some w
          rw [hc, foldl_cacheWrite_written env J cache0 _ _ hex hkeys, hwv]

/-- C7 witness: one cached and one uncached text, with a provider that
answers every call: the cached vector is returned untouched, the call log
never carries the cached text, and the fresh text ends up in the cache. -/
theorem embedding_cache_hit_no_call_and_stable_witness :
    dlookup (EmbedResult.mk [some 7, some 11] [(md5 "fresh text", 11), ("md5:cached text", 7)]
        [["fresh text"]] []).cache (md5 "cached text") = some 7 :=
  ((embedding_cache_hit_no_call_and_stable
      ⟨id, fun _ => 11, fun _ => .ok, fun _ => 0⟩
      [("md5:cached text", 7)] ["cached text", "fresh text"]
      (EmbedResult.mk [some 7, some 11] [(md5 "fresh text", 11), ("md5:cached text", 7)]
        [["fresh text"]] [])
      rfl).1 "cached text" 7 rfl).2.2

end RagSystem
